import Mathlib

/-!
Verification of the launch-listing rotation and interleaving engine.

The definitions below are a shallow embedding of the TypeScript source
(`LaunchPage`): `getCurrentRotationIndex`, `rotateArrayByIndex`,
`insertBoostedLaunches` and `lastWeekWinners`.  Sequences are `List`s,
JS (non-negative, integral) numbers are `Nat`/`Int`, and the template
strings used to build `uniqueKey` values are `List Char`
(the character data of the JS string).
-/

/-- An entry of the listing page.  Only the fields the rotation core
touches are carried: `id` (identity), `upvotes` (optional score used by
the winners view; `undefined` is `none`), and `launchDate` (epoch
milliseconds of the entry's launch date). -/
structure Launch where
  id : String
  upvotes : Option Int
  launchDate : Int
deriving DecidableEq, Repr

/-- Output element of `insertBoostedLaunches`: the launch together with
the synthetic render key (`{ ...launch, uniqueKey }` in the source). -/
structure ListItem where
  launch : Launch
  uniqueKey : List Char
deriving DecidableEq, Repr

/-- `ROTATION_INTERVAL = 10 * 60 * 1000` (ten minutes in milliseconds). -/
def ROTATION_INTERVAL : Nat := 10 * 60 * 1000

/-- `Math.floor(currentTime / ROTATION_INTERVAL)` — the discrete epoch
index for a wall-clock timestamp (the spec's `epochFor`). -/
def epochFor (t : Nat) : Nat := t / ROTATION_INTERVAL

/-- Embeds `getCurrentRotationIndex`: `0` for lists of length at most
one, otherwise `Math.floor(currentTime / ROTATION_INTERVAL) % listLength`. -/
def getCurrentRotationIndex (listLength : Nat) (currentTime : Nat) : Nat :=
  if listLength ≤ 1 then 0 else currentTime / ROTATION_INTERVAL % listLength

/-- Embeds `rotateArrayByIndex`: a copy for short arrays, otherwise
`[...array.slice(index), ...array.slice(0, index)]`. -/
def rotateArrayByIndex (array : List Launch) (index : Nat) : List Launch :=
  if array.length ≤ 1 then array else array.drop index ++ array.take index

/-- The spec's `rotate(sequence, epoch)`: `rotateArrayByIndex` applied at
the offset `epoch mod length` that `getCurrentRotationIndex` computes for
a time inside that epoch. -/
def rotate (seq : List Launch) (epoch : Nat) : List Launch :=
  rotateArrayByIndex seq (epoch % seq.length)

/-- Fuel-indexed decimal digits; `natStrAux (n+1) n` renders `n`. -/
def natStrAux : Nat → Nat → List Char
  | 0, _ => []
  | fuel+1, n =>
    if n < 10 then [Nat.digitChar n]
    else natStrAux fuel (n / 10) ++ [Nat.digitChar (n % 10)]

/-- Decimal rendering of a non-negative integral JS number, as used by
the template literals building `uniqueKey` (e.g. `${index}`). -/
def natStr (n : Nat) : List Char := natStrAux (n + 1) n

/-- A character list with no `'-'`; ids of this shape make key parsing
unambiguous. -/
def hyphenFree (l : List Char) : Prop := ∀ c ∈ l, c ≠ '-'

/-- Numeric value of a digit list; left inverse of `natStr`. -/
def digitsVal (l : List Char) : Nat :=
  l.foldl (fun a c => a * 10 + (c.toNat - 48)) 0

/-- The fixed prefix `"weekly-regular-"`. -/
def wrC : List Char := "weekly-regular-".data

/-- The fixed prefix `"weekly-boosted-"`. -/
def wbC : List Char := "weekly-boosted-".data

/-- The fixed segment `"remaining"`. -/
def remC : List Char := "remaining".data

/-- Key of the no-boosted / no-primary branch:
`weekly-regular-{id}-{index}`. -/
def keyRegularNoTs (l : Launch) (index : Nat) : List Char :=
  wrC ++ (l.id.data ++ '-' :: natStr index)

/-- Key of a primary entry in the main walk:
`weekly-regular-{id}-{index}-{timestamp}`. -/
def keyRegular (l : Launch) (index ts : Nat) : List Char :=
  wrC ++ (l.id.data ++ '-' :: (natStr index ++ '-' :: natStr ts))

/-- Key of a boosted entry placed by the main walk:
`weekly-boosted-{id}-{index}-{timestamp}`. -/
def keyBoosted (l : Launch) (index ts : Nat) : List Char :=
  wbC ++ (l.id.data ++ '-' :: (natStr index ++ '-' :: natStr ts))

/-- Key of a boosted entry placed by the fallback loop:
`weekly-boosted-{id}-remaining-{boostedIndex}-{timestamp}`. -/
def keyBoostedRemaining (l : Launch) (bi ts : Nat) : List Char :=
  wbC ++ (l.id.data ++ '-' :: (remC ++ '-' :: (natStr bi ++ '-' :: natStr ts)))

/-- Whether an output item carries a boosted key (starts with
`"weekly-boosted-"`). -/
def isBoostedItem (it : ListItem) : Bool := wbC.isPrefixOf it.uniqueKey

/-- Placeholder for out-of-range list indexing; never reached under the
loop guards (`boostedIndex < rotatedBoostedLaunches.length`). -/
def dfltLaunch : Launch := { id := "", upvotes := none, launchDate := 0 }

/-- The empty-pool branch of `insertBoostedLaunches`:
`launches.map((launch, index) => ({ ...launch, uniqueKey:
weekly-regular-{id}-{index} }))`, keys without an epoch timestamp. -/
def tagPlain : List Launch → Nat → List ListItem
  | [], _ => []
  | l :: rest, index => ⟨l, keyRegularNoTs l index⟩ :: tagPlain rest (index + 1)

/-- `spacing = Math.max(Math.floor(launches.length /
rotatedBoostedLaunches.length), 2)`. -/
def spacingOf (pLen bLen : Nat) : Nat := max (pLen / bLen) 2

/-- The `launches.forEach` walk: push each primary entry, and after every
`spacing`-th one (while boosted entries remain) push the next boosted
entry.  Returns the built list together with the final `boostedIndex`. -/
def mainLoop (boosted : List Launch) (spacing ts : Nat) :
    List Launch → Nat → Nat → List ListItem × Nat
  | [], _, bi => ([], bi)
  | l :: rest, index, bi =>
    if (index + 1) % spacing = 0 ∧ bi < boosted.length then
      let b := boosted.getD bi dfltLaunch
      let r := mainLoop boosted spacing ts rest (index + 1) (bi + 1)
      (⟨l, keyRegular l index ts⟩ :: ⟨b, keyBoosted b index ts⟩ :: r.1, r.2)
    else
      let r := mainLoop boosted spacing ts rest (index + 1) bi
      (⟨l, keyRegular l index ts⟩ :: r.1, r.2)

/-- `result.splice(insertIndex, 0, item)`: insertion at an index, with
the JS clamping behaviour (an index past the end appends at the end). -/
def splice0 (l : List ListItem) (idx : Nat) (item : ListItem) : List ListItem :=
  l.take idx ++ item :: l.drop idx

/-- Fuel-indexed form of the fallback `while` loop; the fuel is the
number of boosted entries still to place, so recursion is structural.
The source computes `insertIndex` as `Math.floor((result.length /
(boosted.length - boostedIndex + 1)) * (boostedIndex + 1))` in IEEE-754
double arithmetic; this model idealises it as the exact-arithmetic
floor `acc.length * (bi + 1) / (L - bi + 1)`.  The two can differ at
some inputs (see `jsInsertIndex` and `spliceLoopFPAux` for the
rounding-faithful version), so only properties that are invariant under
the insertion position are proved of this model. -/
def spliceLoopAux (boosted : List Launch) (ts : Nat) :
    Nat → Nat → List ListItem → List ListItem
  | 0, _, acc => acc
  | fuel + 1, bi, acc =>
    if bi < boosted.length then
      let insertIndex := acc.length * (bi + 1) / (boosted.length - bi + 1)
      let b := boosted.getD bi dfltLaunch
      spliceLoopAux boosted ts fuel (bi + 1)
        (splice0 acc insertIndex ⟨b, keyBoostedRemaining b bi ts⟩)
    else acc

/-- The `while (boostedIndex < rotatedBoostedLaunches.length)` fallback
loop, spliced onto the main-walk result. -/
def spliceLoop (boosted : List Launch) (ts bi : Nat)
    (acc : List ListItem) : List ListItem :=
  spliceLoopAux boosted ts (boosted.length - bi) bi acc

/-- Embeds `insertBoostedLaunches`; `rotatedBoosted` is the component
state `rotatedBoostedLaunches`, `launches` the argument, and `now` the
wall clock (`Date.now()`), from which the epoch-aligned `timestamp =
Math.floor(now / ROTATION_INTERVAL) * ROTATION_INTERVAL` is derived. -/
def insertBoostedLaunches (rotatedBoosted : List Launch)
    (launches : List Launch) (now : Nat) : List ListItem :=
  if rotatedBoosted.length = 0 ∨ launches.length = 0 then
    tagPlain launches 0
  else
    let spacing := spacingOf launches.length rotatedBoosted.length
    let ts := now / ROTATION_INTERVAL * ROTATION_INTERVAL
    let r := mainLoop rotatedBoosted spacing ts launches 0 0
    spliceLoop rotatedBoosted ts r.2 r.1

/-- The spec's `interleave(primaryRotated, boostedRotated, t)`:
`insertBoostedLaunches` with the boosted pool as component state. -/
def interleave (primary boosted : List Launch) (now : Nat) : List ListItem :=
  insertBoostedLaunches boosted primary now

/-- `launch.upvotes || 0`: a missing score counts as 0. -/
def scoreOf (l : Launch) : Int := l.upvotes.getD 0

/-- Stable descending insertion: `x` (originally earlier than every
element of the list) goes in front of the first element whose score does
not exceed `scoreOf x`, so equal scores keep their original order. -/
def insertDesc (x : Launch) : List Launch → List Launch
  | [] => [x]
  | y :: ys => if scoreOf y ≤ scoreOf x then x :: y :: ys else y :: insertDesc x ys

/-- Stable sort by descending `(upvotes || 0)`.  The source calls the
ECMAScript stable `Array.prototype.sort` with comparator
`(a, b) => (b.upvotes || 0) - (a.upvotes || 0)`; for a consistent
comparator the stable-sorted result is unique, so insertion sort renders
it exactly. -/
def sortByUpvotesDesc : List Launch → List Launch
  | [] => []
  | x :: xs => insertDesc x (sortByUpvotesDesc xs)

/-- `launchDate >= lastWeekStart && launchDate <= lastWeekEnd`
(inclusive window). -/
def inWindow (wStart wEnd : Int) (l : Launch) : Bool :=
  decide (wStart ≤ l.launchDate) && decide (l.launchDate ≤ wEnd)

/-- Embeds `lastWeekWinners` with the window bounds as parameters (the
source computes them from the current date): filter to the window,
stable-sort by descending upvotes, take the first 3. -/
def lastWeekWinners (allLaunches : List Launch) (wStart wEnd : Int) :
    List Launch :=
  (sortByUpvotesDesc (allLaunches.filter (inWindow wStart wEnd))).take 3

/-- Number of iterations `i < n` of the main walk, started at `index`,
whose position triggers a boosted insertion slot
(`(index + i + 1) % spacing = 0`). -/
def slots (spacing : Nat) : Nat → Nat → Nat
  | 0, _ => 0
  | n + 1, index =>
    (if (index + 1) % spacing = 0 then 1 else 0) + slots spacing n (index + 1)

/-- Executable check for two adjacent boosted-keyed items. -/
def hasAdjacentBoosted : List ListItem → Bool
  | [] => false
  | [_] => false
  | a :: c :: rest =>
    (isBoostedItem a && isBoostedItem c) || hasAdjacentBoosted (c :: rest)

/-- Whether the first element of an output list carries a boosted key. -/
def headIsBoosted : List ListItem → Bool
  | [] => false
  | it :: _ => isBoostedItem it

instance hyphenFreeDecidable (l : List Char) : Decidable (hyphenFree l) :=
  inferInstanceAs (Decidable (∀ c ∈ l, c ≠ '-'))

/-- The three shapes a render key can take after the main walk, with the
fallback indices bounded by the current loop counter. -/
def KeyShape (p b : List Launch) (ts bound : Nat) (k : List Char) : Prop :=
  (∃ l i, l ∈ p ∧ k = keyRegular l i ts) ∨
  (∃ l i, l ∈ b ∧ k = keyBoosted l i ts) ∨
  (∃ l j, l ∈ b ∧ j < bound ∧ k = keyBoostedRemaining l j ts)

/-- Round the nonnegative rational `a / b` (with `b > 0`) to the
nearest integer, ties to even — the IEEE-754 default rounding rule.
The fractional part `(a mod b) / b` is compared with `1/2` via
`2·(a mod b)` against `b`. -/
def roundHalfEvenN (a b : Nat) : Nat :=
  let f := a / b
  let r2 := 2 * (a % b)
  if r2 < b then f
  else if b < r2 then f + 1
  else if f % 2 = 0 then f else f + 1

/-- Scale the positive rational `a / b` by powers of two into the
binary64 significand range `[2^52, 2^53)`; returns the scaled
numerator and denominator together with the number of doublings
performed (negative for halvings).  The fuel argument makes the
recursion structural; `a + b + 64` doublings/halvings always suffice. -/
def sigScaleN : Nat → Nat → Nat → ℤ → Nat × Nat × ℤ
  | 0, a, b, k => (a, b, k)
  | fuel + 1, a, b, k =>
    if a < 2 ^ 52 * b then sigScaleN fuel (2 * a) b (k + 1)
    else if 2 ^ 53 * b ≤ a then sigScaleN fuel a (2 * b) (k - 1)
    else (a, b, k)

/-- The IEEE-754 binary64 (double) value nearest to the nonnegative
rational `a / b` (with `b > 0`), ties to even, returned as a
numerator/denominator pair: scale into the significand range, round
the 53-bit significand, scale back by `2^(−k)`.  Exponent overflow and
subnormals, unreachable at the magnitudes a page's list lengths
produce, are not modelled. -/
def fl64N (a b : Nat) : Nat × Nat :=
  if a = 0 then (0, 1)
  else
    let p := sigScaleN (a + b + 64) a b 0
    let n := roundHalfEvenN p.1 p.2.1
    if 0 ≤ p.2.2 then (n, 2 ^ p.2.2.toNat)
    else (n * 2 ^ (-p.2.2).toNat, 1)

/-- `Math.floor((r / d) * m)` exactly as the source's fallback loop
computes it: a correctly-rounded binary64 division, a correctly-rounded
binary64 multiplication of the result by the integer `m`, then
`Math.floor` (floor of a nonnegative rational is `Nat` division).  The
operands are list lengths and loop counters, far below `2^53`, so they
are themselves exact doubles. -/
def jsInsertIndex (r d m : Nat) : Nat :=
  let x := fl64N r d
  let y := fl64N (x.1 * m) x.2
  y.1 / y.2

/-- Rounding-faithful fuel-indexed fallback loop: identical to
`spliceLoopAux` except that the insertion index is the IEEE-754 double
computation `jsInsertIndex` instead of the exact-arithmetic floor. -/
def spliceLoopFPAux (boosted : List Launch) (ts : Nat) :
    Nat → Nat → List ListItem → List ListItem
  | 0, _, acc => acc
  | fuel + 1, bi, acc =>
    if bi < boosted.length then
      let insertIndex := jsInsertIndex acc.length (boosted.length - bi + 1) (bi + 1)
      let b := boosted.getD bi dfltLaunch
      spliceLoopFPAux boosted ts fuel (bi + 1)
        (splice0 acc insertIndex ⟨b, keyBoostedRemaining b bi ts⟩)
    else acc

/-- Rounding-faithful form of the fallback `while` loop. -/
def spliceLoopFP (boosted : List Launch) (ts bi : Nat)
    (acc : List ListItem) : List ListItem :=
  spliceLoopFPAux boosted ts (boosted.length - bi) bi acc

/-- Rounding-faithful `insertBoostedLaunches`: identical to
`insertBoostedLaunches` except that the fallback loop computes its
insertion index in binary64 arithmetic, as the source does. -/
def insertBoostedLaunchesFP (rotatedBoosted : List Launch)
    (launches : List Launch) (now : Nat) : List ListItem :=
  if rotatedBoosted.length = 0 ∨ launches.length = 0 then
    tagPlain launches 0
  else
    let spacing := spacingOf launches.length rotatedBoosted.length
    let ts := now / ROTATION_INTERVAL * ROTATION_INTERVAL
    let r := mainLoop rotatedBoosted spacing ts launches 0 0
    spliceLoopFP rotatedBoosted ts r.2 r.1

/-- Rounding-faithful `interleave`. -/
def interleaveFP (primary boosted : List Launch) (now : Nat) : List ListItem :=
  insertBoostedLaunchesFP boosted primary now

theorem rotate_eq_code_composition (seq : List Launch) (t : Nat) :
    rotateArrayByIndex seq (getCurrentRotationIndex seq.length t) =
      rotate seq (epochFor t) := by
  unfold rotate rotateArrayByIndex getCurrentRotationIndex epochFor
  by_cases h : seq.length ≤ 1 <;> simp [h]

theorem natStrAux_fuel (n : Nat) :
    ∀ f f', n < f → n < f' → natStrAux f n = natStrAux f' n := by
  induction n using Nat.strong_induction_on with
  | _ n ih =>
    intro f f' hf hf'
    match f, f' with
    | f + 1, f' + 1 =>
      simp only [natStrAux]
      by_cases h : n < 10
      · simp [h]
      · simp only [h, if_false]
        have hrec : n / 10 < n := Nat.div_lt_self (by omega) (by omega)
        rw [ih (n / 10) hrec f f' (by omega) (by omega)]

theorem natStr_eq (n : Nat) :
    natStr n = if n < 10 then [Nat.digitChar n]
      else natStr (n / 10) ++ [Nat.digitChar (n % 10)] := by
  have h1 : natStr n = if n < 10 then [Nat.digitChar n]
      else natStrAux n (n / 10) ++ [Nat.digitChar (n % 10)] := rfl
  rw [h1]
  by_cases h : n < 10
  · simp [h]
  · simp only [h, if_false]
    rw [natStrAux_fuel (n / 10) n (n / 10 + 1)
      (Nat.div_lt_self (by omega) (by omega)) (by omega)]
    rfl

theorem digitChar_isDigit {d : Nat} (h : d < 10) :
    (Nat.digitChar d).isDigit = true := by
  interval_cases d <;> decide

theorem natStr_isDigit (n : Nat) : ∀ c ∈ natStr n, c.isDigit = true := by
  induction n using Nat.strong_induction_on with
  | _ n ih =>
    rw [natStr_eq]
    by_cases h : n < 10
    · simp only [h, if_true, List.mem_singleton]
      rintro c rfl
      exact digitChar_isDigit h
    · simp only [h, if_false, List.mem_append, List.mem_singleton]
      rintro c (hc | rfl)
      · exact ih (n / 10) (Nat.div_lt_self (by omega) (by omega)) c hc
      · exact digitChar_isDigit (Nat.mod_lt _ (by omega))

theorem natStr_hyphenFree (n : Nat) : hyphenFree (natStr n) := by
  intro c hc h
  have := natStr_isDigit n c hc
  rw [h] at this
  exact absurd this (by decide)

theorem digitsVal_append_singleton (l : List Char) (c : Char) :
    digitsVal (l ++ [c]) = digitsVal l * 10 + (c.toNat - 48) := by
  unfold digitsVal
  rw [List.foldl_append]
  rfl

theorem digitChar_toNat {d : Nat} (h : d < 10) :
    (Nat.digitChar d).toNat - 48 = d := by
  interval_cases d <;> decide

theorem digitsVal_natStr (n : Nat) : digitsVal (natStr n) = n := by
  induction n using Nat.strong_induction_on with
  | _ n ih =>
    rw [natStr_eq]
    by_cases h : n < 10
    · simp only [h, if_true]
      show digitsVal ([] ++ [Nat.digitChar n]) = n
      rw [digitsVal_append_singleton, digitChar_toNat h]
      simp [digitsVal]
    · simp only [h, if_false]
      rw [digitsVal_append_singleton,
        ih (n / 10) (Nat.div_lt_self (by omega) (by omega)),
        digitChar_toNat (Nat.mod_lt _ (by omega))]
      omega

theorem natStr_inj {m n : Nat} (h : natStr m = natStr n) : m = n := by
  have := congrArg digitsVal h
  rwa [digitsVal_natStr, digitsVal_natStr] at this

theorem hyphen_split {a b x y : List Char} (ha : hyphenFree a) (hb : hyphenFree b)
    (h : a ++ '-' :: x = b ++ '-' :: y) : a = b ∧ x = y := by
  induction a generalizing b with
  | nil =>
    cases b with
    | nil => simpa using h
    | cons c bs =>
      simp only [List.nil_append, List.cons_append, List.cons.injEq] at h
      exact absurd h.1.symm (hb c (List.mem_cons_self c bs))
  | cons c as ih =>
    cases b with
    | nil =>
      simp only [List.cons_append, List.nil_append, List.cons.injEq] at h
      exact absurd h.1 (ha c (List.mem_cons_self c as))
    | cons d bs =>
      simp only [List.cons_append, List.cons.injEq] at h
      obtain ⟨rfl, h2⟩ := h
      obtain ⟨rfl, rfl⟩ :=
        ih (fun e he => ha e (List.mem_cons_of_mem _ he))
          (fun e he => hb e (List.mem_cons_of_mem _ he)) h2
      exact ⟨rfl, rfl⟩

theorem remC_hyphenFree : hyphenFree remC := by unfold hyphenFree; decide

theorem wr_append_ne_wb_append (x y : List Char) : wrC ++ x ≠ wbC ++ y := by
  intro h
  have hlen : wrC.length = wbC.length := by decide
  have := (List.append_inj h hlen).1
  exact absurd this (by decide)

theorem keyRegularNoTs_inj {l1 l2 : Launch} {i1 i2 : Nat}
    (h1 : hyphenFree l1.id.data) (h2 : hyphenFree l2.id.data)
    (h : keyRegularNoTs l1 i1 = keyRegularNoTs l2 i2) : i1 = i2 := by
  unfold keyRegularNoTs at h
  have h' := (List.append_inj h rfl).2
  obtain ⟨_, hrest⟩ := hyphen_split h1 h2 h'
  exact natStr_inj hrest

theorem keyRegular_inj {l1 l2 : Launch} {i1 i2 ts : Nat}
    (h1 : hyphenFree l1.id.data) (h2 : hyphenFree l2.id.data)
    (h : keyRegular l1 i1 ts = keyRegular l2 i2 ts) : i1 = i2 := by
  unfold keyRegular at h
  have h' := (List.append_inj h rfl).2
  obtain ⟨_, hrest⟩ := hyphen_split h1 h2 h'
  obtain ⟨hidx, _⟩ :=
    hyphen_split (natStr_hyphenFree i1) (natStr_hyphenFree i2) hrest
  exact natStr_inj hidx

theorem keyBoosted_inj {l1 l2 : Launch} {i1 i2 ts : Nat}
    (h1 : hyphenFree l1.id.data) (h2 : hyphenFree l2.id.data)
    (h : keyBoosted l1 i1 ts = keyBoosted l2 i2 ts) : i1 = i2 := by
  unfold keyBoosted at h
  have h' := (List.append_inj h rfl).2
  obtain ⟨_, hrest⟩ := hyphen_split h1 h2 h'
  obtain ⟨hidx, _⟩ :=
    hyphen_split (natStr_hyphenFree i1) (natStr_hyphenFree i2) hrest
  exact natStr_inj hidx

theorem keyBoostedRemaining_inj {l1 l2 : Launch} {j1 j2 ts : Nat}
    (h1 : hyphenFree l1.id.data) (h2 : hyphenFree l2.id.data)
    (h : keyBoostedRemaining l1 j1 ts = keyBoostedRemaining l2 j2 ts) :
    j1 = j2 := by
  unfold keyBoostedRemaining at h
  have h' := (List.append_inj h rfl).2
  obtain ⟨_, hrest⟩ := hyphen_split h1 h2 h'
  obtain ⟨_, hrest2⟩ := hyphen_split remC_hyphenFree remC_hyphenFree hrest
  obtain ⟨hj, _⟩ :=
    hyphen_split (natStr_hyphenFree j1) (natStr_hyphenFree j2) hrest2
  exact natStr_inj hj

theorem keyBoosted_ne_keyBoostedRemaining {l1 l2 : Launch} {i j ts : Nat}
    (h1 : hyphenFree l1.id.data) (h2 : hyphenFree l2.id.data) :
    keyBoosted l1 i ts ≠ keyBoostedRemaining l2 j ts := by
  intro h
  unfold keyBoosted keyBoostedRemaining at h
  have h' := (List.append_inj h rfl).2
  obtain ⟨_, hrest⟩ := hyphen_split h1 h2 h'
  obtain ⟨hseg, _⟩ :=
    hyphen_split (natStr_hyphenFree i) remC_hyphenFree hrest
  have hr : 'r' ∈ natStr i := by rw [hseg]; decide
  have := natStr_isDigit i 'r' hr
  exact absurd this (by decide)

theorem wb_isPrefixOf_wr_append (x : List Char) :
    wbC.isPrefixOf (wrC ++ x) = false := by
  rw [Bool.eq_false_iff]
  intro h
  rw [List.isPrefixOf_iff_prefix] at h
  obtain ⟨t, ht⟩ := h
  exact wr_append_ne_wb_append x t ht.symm

theorem wb_isPrefixOf_wb_append (x : List Char) :
    wbC.isPrefixOf (wbC ++ x) = true := by
  rw [List.isPrefixOf_iff_prefix]
  exact ⟨x, rfl⟩

theorem insertDesc_mem {x z : Launch} {l : List Launch}
    (h : z ∈ insertDesc x l) : z = x ∨ z ∈ l := by
  induction l with
  | nil => simpa [insertDesc] using h
  | cons y ys ih =>
    unfold insertDesc at h
    by_cases hc : scoreOf y ≤ scoreOf x
    · simp only [hc, if_true, List.mem_cons] at h
      rcases h with h | h | h
      · exact Or.inl h
      · exact Or.inr (by simp [h])
      · exact Or.inr (List.mem_cons_of_mem _ h)
    · simp only [hc, if_false, List.mem_cons] at h
      rcases h with h | h
      · exact Or.inr (by simp [h])
      · rcases ih h with h' | h'
        · exact Or.inl h'
        · exact Or.inr (List.mem_cons_of_mem _ h')

theorem sortByUpvotesDesc_mem {z : Launch} {l : List Launch}
    (h : z ∈ sortByUpvotesDesc l) : z ∈ l := by
  induction l with
  | nil => simpa [sortByUpvotesDesc] using h
  | cons x xs ih =>
    unfold sortByUpvotesDesc at h
    rcases insertDesc_mem h with h' | h'
    · simp [h']
    · exact List.mem_cons_of_mem _ (ih h')

theorem insertDesc_sorted {x : Launch} {l : List Launch}
    (h : l.Pairwise (fun a b => scoreOf b ≤ scoreOf a)) :
    (insertDesc x l).Pairwise (fun a b => scoreOf b ≤ scoreOf a) := by
  induction l with
  | nil => simp [insertDesc]
  | cons y ys ih =>
    rw [List.pairwise_cons] at h
    unfold insertDesc
    by_cases hc : scoreOf y ≤ scoreOf x
    · simp only [hc, if_true]
      rw [List.pairwise_cons]
      refine ⟨?_, List.pairwise_cons.mpr h⟩
      intro z hz
      rcases List.mem_cons.mp hz with rfl | hz'
      · exact hc
      · exact le_trans (h.1 z hz') hc
    · simp only [hc, if_false]
      rw [List.pairwise_cons]
      refine ⟨?_, ih h.2⟩
      intro z hz
      rcases insertDesc_mem hz with rfl | hz'
      · omega
      · exact h.1 z hz'

theorem sortByUpvotesDesc_sorted (l : List Launch) :
    (sortByUpvotesDesc l).Pairwise (fun a b => scoreOf b ≤ scoreOf a) := by
  induction l with
  | nil => simp [sortByUpvotesDesc]
  | cons x xs ih => exact insertDesc_sorted ih

theorem insertDesc_filter_score (x : Launch) (l : List Launch) (c : Int) :
    (insertDesc x l).filter (fun y => decide (scoreOf y = c)) =
      if scoreOf x = c then
        x :: l.filter (fun y => decide (scoreOf y = c))
      else l.filter (fun y => decide (scoreOf y = c)) := by
  induction l with
  | nil =>
    by_cases hx : scoreOf x = c <;> simp [insertDesc, hx]
  | cons y ys ih =>
    unfold insertDesc
    by_cases hc : scoreOf y ≤ scoreOf x
    · rw [if_pos hc]
      by_cases hx : scoreOf x = c <;> by_cases hy : scoreOf y = c <;>
        simp [hx, hy]
    · rw [if_neg hc]
      by_cases hx : scoreOf x = c
      · have hy : ¬ scoreOf y = c := by omega
        simp [hy, ih, hx]
      · by_cases hy : scoreOf y = c <;> simp [hy, ih, hx]

/-- Stability of the sort: for every score value, the entries carrying
that score appear in the sorted list in their original relative order. -/
theorem sortByUpvotesDesc_stable (l : List Launch) (c : Int) :
    (sortByUpvotesDesc l).filter (fun y => decide (scoreOf y = c)) =
      l.filter (fun y => decide (scoreOf y = c)) := by
  induction l with
  | nil => simp [sortByUpvotesDesc]
  | cons x xs ih =>
    unfold sortByUpvotesDesc
    rw [insertDesc_filter_score]
    by_cases hx : scoreOf x = c <;> simp [hx, ih]

theorem splice0_length (l : List ListItem) (idx : Nat) (it : ListItem) :
    (splice0 l idx it).length = l.length + 1 := by
  unfold splice0
  simp only [List.length_append, List.length_cons, List.length_take,
    List.length_drop]
  omega

theorem splice0_perm (l : List ListItem) (idx : Nat) (it : ListItem) :
    (splice0 l idx it).Perm (it :: l) := by
  unfold splice0
  have h := @List.perm_middle ListItem it (l.take idx) (l.drop idx)
  rwa [List.take_append_drop] at h

theorem splice0_filter (l : List ListItem) (idx : Nat) (it : ListItem)
    (p : ListItem → Bool) (h : p it = false) :
    (splice0 l idx it).filter p = l.filter p := by
  unfold splice0
  rw [List.filter_append, List.filter_cons, h]
  simp only [Bool.false_eq_true, if_false]
  rw [← List.filter_append, List.take_append_drop]

theorem splice0_head (a : ListItem) (l : List ListItem) (idx : Nat)
    (it : ListItem) (h : 1 ≤ idx) :
    (splice0 (a :: l) idx it).head? = some a := by
  match idx, h with
  | idx + 1, _ =>
    show ((a :: l).take (idx + 1) ++ it :: (a :: l).drop (idx + 1)).head? = some a
    rw [List.take_succ_cons]
    rfl

theorem slots_succ (spacing n index : Nat) :
    slots spacing (n + 1) index =
      (if (index + 1) % spacing = 0 then 1 else 0) +
        slots spacing n (index + 1) := rfl

theorem slots_eq (spacing : Nat) :
    ∀ n index, slots spacing n index =
      (index + n) / spacing - index / spacing := by
  intro n
  induction n with
  | zero => intro index; simp [slots]
  | succ n ih =>
    intro index
    rw [slots_succ, ih (index + 1)]
    have hd : (index + 1) / spacing =
        index / spacing + if spacing ∣ index + 1 then 1 else 0 :=
      Nat.succ_div index spacing
    have harg : index + 1 + n = index + (n + 1) := by omega
    rw [harg]
    have hmono : (index + 1) / spacing ≤ (index + (n + 1)) / spacing :=
      Nat.div_le_div_right (by omega)
    have hdvd : (index + 1) % spacing = 0 ↔ spacing ∣ index + 1 :=
      (Nat.dvd_iff_mod_eq_zero).symm
    by_cases h : (index + 1) % spacing = 0
    · rw [if_pos h]
      rw [if_pos (hdvd.mp h)] at hd
      omega
    · rw [if_neg h]
      rw [if_neg (fun hc => h (hdvd.mpr hc))] at hd
      omega

theorem mainLoop_snd (boosted : List Launch) (spacing ts : Nat) :
    ∀ launches index bi,
      (mainLoop boosted spacing ts launches index bi).2 =
        bi + min (boosted.length - bi) (slots spacing launches.length index) := by
  intro launches
  induction launches with
  | nil => intro index bi; simp [mainLoop, slots]
  | cons l rest ih =>
    intro index bi
    unfold mainLoop
    by_cases hcond : (index + 1) % spacing = 0 ∧ bi < boosted.length
    · rw [if_pos hcond]
      show (mainLoop boosted spacing ts rest (index + 1) (bi + 1)).2 = _
      rw [ih (index + 1) (bi + 1)]
      show _ = bi + min (boosted.length - bi) (slots spacing (rest.length + 1) index)
      rw [slots_succ, if_pos hcond.1]
      have := hcond.2
      omega
    · rw [if_neg hcond]
      show (mainLoop boosted spacing ts rest (index + 1) bi).2 = _
      rw [ih (index + 1) bi]
      show _ = bi + min (boosted.length - bi) (slots spacing (rest.length + 1) index)
      rw [slots_succ]
      by_cases h1 : (index + 1) % spacing = 0
      · have h2 : ¬ bi < boosted.length := fun hc => hcond ⟨h1, hc⟩
        rw [if_pos h1]
        omega
      · rw [if_neg h1]
        omega

theorem mainLoop_cons_pos (boosted : List Launch) (spacing ts : Nat)
    (l : Launch) (rest : List Launch) (index bi : Nat)
    (h : (index + 1) % spacing = 0 ∧ bi < boosted.length) :
    mainLoop boosted spacing ts (l :: rest) index bi =
      (⟨l, keyRegular l index ts⟩ ::
        ⟨boosted.getD bi dfltLaunch,
          keyBoosted (boosted.getD bi dfltLaunch) index ts⟩ ::
            (mainLoop boosted spacing ts rest (index + 1) (bi + 1)).1,
        (mainLoop boosted spacing ts rest (index + 1) (bi + 1)).2) := by
  conv_lhs => unfold mainLoop
  rw [if_pos h]

theorem mainLoop_cons_neg (boosted : List Launch) (spacing ts : Nat)
    (l : Launch) (rest : List Launch) (index bi : Nat)
    (h : ¬ ((index + 1) % spacing = 0 ∧ bi < boosted.length)) :
    mainLoop boosted spacing ts (l :: rest) index bi =
      (⟨l, keyRegular l index ts⟩ ::
        (mainLoop boosted spacing ts rest (index + 1) bi).1,
        (mainLoop boosted spacing ts rest (index + 1) bi).2) := by
  conv_lhs => unfold mainLoop
  rw [if_neg h]

theorem spliceLoopAux_succ_pos (boosted : List Launch) (ts fuel bi : Nat)
    (acc : List ListItem) (h : bi < boosted.length) :
    spliceLoopAux boosted ts (fuel + 1) bi acc =
      spliceLoopAux boosted ts fuel (bi + 1)
        (splice0 acc (acc.length * (bi + 1) / (boosted.length - bi + 1))
          ⟨boosted.getD bi dfltLaunch,
            keyBoostedRemaining (boosted.getD bi dfltLaunch) bi ts⟩) := by
  conv_lhs => unfold spliceLoopAux
  rw [if_pos h]

theorem spliceLoopAux_succ_neg (boosted : List Launch) (ts fuel bi : Nat)
    (acc : List ListItem) (h : ¬ bi < boosted.length) :
    spliceLoopAux boosted ts (fuel + 1) bi acc = acc := by
  unfold spliceLoopAux
  rw [if_neg h]

theorem mainLoop_len (boosted : List Launch) (spacing ts : Nat) :
    ∀ launches index bi,
      bi ≤ (mainLoop boosted spacing ts launches index bi).2 ∧
      (mainLoop boosted spacing ts launches index bi).1.length =
        launches.length +
          ((mainLoop boosted spacing ts launches index bi).2 - bi) := by
  intro launches
  induction launches with
  | nil => intro index bi; simp [mainLoop]
  | cons l rest ih =>
    intro index bi
    by_cases hcond : (index + 1) % spacing = 0 ∧ bi < boosted.length
    · rw [mainLoop_cons_pos boosted spacing ts l rest index bi hcond]
      have h2 := ih (index + 1) (bi + 1)
      dsimp only
      simp only [List.length_cons]
      omega
    · rw [mainLoop_cons_neg boosted spacing ts l rest index bi hcond]
      have h2 := ih (index + 1) bi
      dsimp only
      simp only [List.length_cons]
      omega

theorem mainLoop_perm (boosted : List Launch) (spacing ts : Nat) :
    ∀ launches index bi,
      ((mainLoop boosted spacing ts launches index bi).1.map
        (fun it => it.launch)).Perm
        (launches ++ ((boosted.drop bi).take
          ((mainLoop boosted spacing ts launches index bi).2 - bi))) := by
  intro launches
  induction launches with
  | nil => intro index bi; simp [mainLoop]
  | cons l rest ih =>
    intro index bi
    by_cases hcond : (index + 1) % spacing = 0 ∧ bi < boosted.length
    · rw [mainLoop_cons_pos boosted spacing ts l rest index bi hcond]
      dsimp only
      have hfin := (mainLoop_len boosted spacing ts rest (index + 1) (bi + 1)).1
      have hdrop : boosted.drop bi =
          boosted.getD bi dfltLaunch :: boosted.drop (bi + 1) := by
        rw [List.getD_eq_getElem _ _ hcond.2]
        exact List.drop_eq_getElem_cons hcond.2
      have hsub : (mainLoop boosted spacing ts rest (index + 1) (bi + 1)).2 - bi =
          ((mainLoop boosted spacing ts rest (index + 1) (bi + 1)).2 - (bi + 1)) + 1 := by
        omega
      rw [hdrop, hsub, List.take_succ_cons, List.map_cons, List.map_cons,
        List.cons_append]
      refine List.Perm.cons l ?_
      refine (List.Perm.cons _ (ih (index + 1) (bi + 1))).trans ?_
      exact List.perm_middle.symm
    · rw [mainLoop_cons_neg boosted spacing ts l rest index bi hcond]
      dsimp only
      rw [List.map_cons, List.cons_append]
      exact List.Perm.cons l (ih (index + 1) bi)

theorem isBoostedItem_keyRegular (l : Launch) (i ts : Nat) :
    isBoostedItem ⟨l, keyRegular l i ts⟩ = false := by
  unfold isBoostedItem keyRegular
  exact wb_isPrefixOf_wr_append _

theorem isBoostedItem_keyRegularNoTs (l : Launch) (i : Nat) :
    isBoostedItem ⟨l, keyRegularNoTs l i⟩ = false := by
  unfold isBoostedItem keyRegularNoTs
  exact wb_isPrefixOf_wr_append _

theorem isBoostedItem_keyBoosted (l : Launch) (i ts : Nat) :
    isBoostedItem ⟨l, keyBoosted l i ts⟩ = true := by
  unfold isBoostedItem keyBoosted
  exact wb_isPrefixOf_wb_append _

theorem isBoostedItem_keyBoostedRemaining (l : Launch) (bi ts : Nat) :
    isBoostedItem ⟨l, keyBoostedRemaining l bi ts⟩ = true := by
  unfold isBoostedItem keyBoostedRemaining
  exact wb_isPrefixOf_wb_append _

theorem mainLoop_filter (boosted : List Launch) (spacing ts : Nat) :
    ∀ launches index bi,
      ((mainLoop boosted spacing ts launches index bi).1.filter
        (fun it => !(isBoostedItem it))).map (fun it => it.launch) =
        launches := by
  intro launches
  induction launches with
  | nil => intro index bi; simp [mainLoop]
  | cons l rest ih =>
    intro index bi
    by_cases hcond : (index + 1) % spacing = 0 ∧ bi < boosted.length
    · rw [mainLoop_cons_pos boosted spacing ts l rest index bi hcond]
      dsimp only
      rw [List.filter_cons, List.filter_cons,
        isBoostedItem_keyRegular, isBoostedItem_keyBoosted]
      simp only [Bool.not_false, Bool.not_true, if_true, if_false,
        Bool.false_eq_true, List.map_cons]
      rw [ih (index + 1) (bi + 1)]
    · rw [mainLoop_cons_neg boosted spacing ts l rest index bi hcond]
      dsimp only
      rw [List.filter_cons, isBoostedItem_keyRegular]
      simp only [Bool.not_false, if_true, List.map_cons]
      rw [ih (index + 1) bi]

theorem mainLoop_head (boosted : List Launch) (spacing ts : Nat)
    (l : Launch) (rest : List Launch) (index bi : Nat) :
    (mainLoop boosted spacing ts (l :: rest) index bi).1.head? =
      some ⟨l, keyRegular l index ts⟩ := by
  by_cases hcond : (index + 1) % spacing = 0 ∧ bi < boosted.length
  · rw [mainLoop_cons_pos boosted spacing ts l rest index bi hcond]
    rfl
  · rw [mainLoop_cons_neg boosted spacing ts l rest index bi hcond]
    rfl

theorem mainLoop_chain (boosted : List Launch) (spacing ts : Nat) :
    ∀ launches index bi,
      List.Chain'
        (fun a c => ¬(isBoostedItem a = true ∧ isBoostedItem c = true))
        (mainLoop boosted spacing ts launches index bi).1 ∧
      ∀ it ∈ (mainLoop boosted spacing ts launches index bi).1.head?,
        isBoostedItem it = false := by
  intro launches
  induction launches with
  | nil => intro index bi; simp [mainLoop]
  | cons l rest ih =>
    intro index bi
    by_cases hcond : (index + 1) % spacing = 0 ∧ bi < boosted.length
    · rw [mainLoop_cons_pos boosted spacing ts l rest index bi hcond]
      dsimp only
      constructor
      · rw [List.chain'_cons']
        constructor
        · intro y hy hc
          have := hc.1
          rw [isBoostedItem_keyRegular] at this
          exact Bool.noConfusion this
        · rw [List.chain'_cons']
          refine ⟨?_, (ih (index + 1) (bi + 1)).1⟩
          intro y hy hc
          have := (ih (index + 1) (bi + 1)).2 y hy
          rw [this] at hc
          exact Bool.noConfusion hc.2
      · intro it hit
        simp only [List.head?_cons, Option.mem_def, Option.some.injEq] at hit
        subst hit
        exact isBoostedItem_keyRegular l index ts
    · rw [mainLoop_cons_neg boosted spacing ts l rest index bi hcond]
      dsimp only
      constructor
      · rw [List.chain'_cons']
        refine ⟨?_, (ih (index + 1) bi).1⟩
        intro y hy hc
        have := hc.1
        rw [isBoostedItem_keyRegular] at this
        exact Bool.noConfusion this
      · intro it hit
        simp only [List.head?_cons, Option.mem_def, Option.some.injEq] at hit
        subst hit
        exact isBoostedItem_keyRegular l index ts

theorem spliceLoopAux_len (boosted : List Launch) (ts : Nat) :
    ∀ fuel bi acc, boosted.length = bi + fuel →
      (spliceLoopAux boosted ts fuel bi acc).length = acc.length + fuel := by
  intro fuel
  induction fuel with
  | zero => intro bi acc h; simp [spliceLoopAux]
  | succ fuel ih =>
    intro bi acc h
    have hbi : bi < boosted.length := by omega
    rw [spliceLoopAux_succ_pos boosted ts fuel bi acc hbi]
    rw [ih (bi + 1) _ (by omega)]
    rw [splice0_length]
    omega

theorem spliceLoopAux_perm (boosted : List Launch) (ts : Nat) :
    ∀ fuel bi acc, boosted.length = bi + fuel →
      ((spliceLoopAux boosted ts fuel bi acc).map (fun it => it.launch)).Perm
        (acc.map (fun it => it.launch) ++ boosted.drop bi) := by
  intro fuel
  induction fuel with
  | zero =>
    intro bi acc h
    have hd : boosted.drop bi = [] := List.drop_eq_nil_of_le (by omega)
    rw [hd]
    simp [spliceLoopAux]
  | succ fuel ih =>
    intro bi acc h
    have hbi : bi < boosted.length := by omega
    rw [spliceLoopAux_succ_pos boosted ts fuel bi acc hbi]
    refine (ih (bi + 1) _ (by omega)).trans ?_
    have hsp :
        ((splice0 acc (acc.length * (bi + 1) / (boosted.length - bi + 1))
          ⟨boosted.getD bi dfltLaunch,
            keyBoostedRemaining (boosted.getD bi dfltLaunch) bi ts⟩).map
          (fun it => it.launch)).Perm
          (boosted.getD bi dfltLaunch :: acc.map (fun it => it.launch)) :=
      (splice0_perm acc _ _).map (fun it => it.launch)
    refine (hsp.append_right _).trans ?_
    have hdrop : boosted.drop bi =
        boosted.getD bi dfltLaunch :: boosted.drop (bi + 1) := by
      rw [List.getD_eq_getElem _ _ hbi]
      exact List.drop_eq_getElem_cons hbi
    rw [hdrop]
    exact List.perm_middle.symm

theorem spliceLoopAux_filter (boosted : List Launch) (ts : Nat) :
    ∀ fuel bi acc,
      (spliceLoopAux boosted ts fuel bi acc).filter
        (fun it => !(isBoostedItem it)) =
        acc.filter (fun it => !(isBoostedItem it)) := by
  intro fuel
  induction fuel with
  | zero => intro bi acc; rfl
  | succ fuel ih =>
    intro bi acc
    by_cases hbi : bi < boosted.length
    · rw [spliceLoopAux_succ_pos boosted ts fuel bi acc hbi]
      rw [ih (bi + 1) _]
      exact splice0_filter _ _ _ _ (by simp [isBoostedItem_keyBoostedRemaining])
    · rw [spliceLoopAux_succ_neg boosted ts fuel bi acc hbi]

theorem spliceLoopAux_head (boosted : List Launch) (ts pL : Nat) :
    ∀ fuel bi acc, 1 ≤ bi → pL ≤ acc.length → 1 ≤ pL →
      boosted.length ≤ 2 * pL →
      (spliceLoopAux boosted ts fuel bi acc).head? = acc.head? := by
  intro fuel
  induction fuel with
  | zero => intro bi acc _ _ _ _; rfl
  | succ fuel ih =>
    intro bi acc h1 h2 h3 h4
    by_cases hbi : bi < boosted.length
    · cases acc with
      | nil => exact False.elim (by simp at h2; omega)
      | cons a rest =>
        rw [spliceLoopAux_succ_pos boosted ts fuel bi (a :: rest) hbi]
        rw [ih (bi + 1) _ (by omega) (by rw [splice0_length]; omega) h3 h4]
        have hmul : pL * 2 ≤ (a :: rest).length * (bi + 1) :=
          Nat.mul_le_mul h2 (by omega)
        have hidx : 1 ≤ (a :: rest).length * (bi + 1) /
            (boosted.length - bi + 1) :=
          (Nat.one_le_div_iff (by omega)).mpr (by omega)
        rw [splice0_head a rest _ _ hidx]
        rfl
    · rw [spliceLoopAux_succ_neg boosted ts fuel bi acc hbi]

theorem tagPlain_map (launches : List Launch) :
    ∀ index, (tagPlain launches index).map (fun it => it.launch) = launches := by
  induction launches with
  | nil => intro index; rfl
  | cons l rest ih =>
    intro index
    show (⟨l, keyRegularNoTs l index⟩ ::
      tagPlain rest (index + 1)).map (fun it => it.launch) = l :: rest
    rw [List.map_cons, ih (index + 1)]

theorem tagPlain_length (launches : List Launch) (index : Nat) :
    (tagPlain launches index).length = launches.length := by
  have := congrArg List.length (tagPlain_map launches index)
  rwa [List.length_map] at this

theorem tagPlain_filter (launches : List Launch) :
    ∀ index, (tagPlain launches index).filter
      (fun it => !(isBoostedItem it)) = tagPlain launches index := by
  induction launches with
  | nil => intro index; rfl
  | cons l rest ih =>
    intro index
    show (⟨l, keyRegularNoTs l index⟩ ::
        tagPlain rest (index + 1)).filter (fun it => !(isBoostedItem it)) = _
    rw [List.filter_cons]
    simp only [isBoostedItem_keyRegularNoTs, Bool.not_false, if_true]
    rw [ih (index + 1)]
    rfl

theorem interleave_empty_branch (primary boosted : List Launch) (now : Nat)
    (h : boosted.length = 0 ∨ primary.length = 0) :
    interleave primary boosted now = tagPlain primary 0 := by
  unfold interleave insertBoostedLaunches
  rw [if_pos h]

theorem interleave_eq_main (primary boosted : List Launch) (now : Nat)
    (hp : primary ≠ []) (hb : boosted ≠ []) :
    interleave primary boosted now =
      spliceLoop boosted (now / ROTATION_INTERVAL * ROTATION_INTERVAL)
        (mainLoop boosted (spacingOf primary.length boosted.length)
          (now / ROTATION_INTERVAL * ROTATION_INTERVAL) primary 0 0).2
        (mainLoop boosted (spacingOf primary.length boosted.length)
          (now / ROTATION_INTERVAL * ROTATION_INTERVAL) primary 0 0).1 := by
  unfold interleave insertBoostedLaunches
  rw [if_neg (by simp [List.length_eq_zero, hp, hb])]

/-- C3 (corrected): with an empty primary pool the code returns the
tagged primary list, which is empty — the boosted entries are dropped,
not returned; with an empty boosted pool the primary list is returned
unchanged in order. -/
theorem claim_C3 :
    (∀ (b : List Launch) (t : Nat), interleave [] b t = []) ∧
    (∀ (p : List Launch) (t : Nat),
      (interleave p [] t).map (fun it => it.launch) = p) := by
  constructor
  · intro b t
    rw [interleave_empty_branch [] b t (Or.inr rfl)]
    rfl
  · intro p t
    rw [interleave_empty_branch p [] t (Or.inl rfl)]
    exact tagPlain_map p 0

/-- C3 counterexample: `interleave([], [b1], t)` does not return the
boosted sequence unchanged — it returns the empty list. -/
theorem claim_C3_counterexample :
    (interleave [] [{ id := "b1", upvotes := none, launchDate := 0 }] 0).map
      (fun it => it.launch) ≠
      [{ id := "b1", upvotes := none, launchDate := 0 }] := by decide

/-- C8 (corrected): `epochFor t = ⌊t / 600000⌋` and
`epochFor (t + INTERVAL) = epochFor t + 1` hold for every `t`, but
`epochFor t = epochFor (t + INTERVAL - 1)` only holds at interval
starts (`t = k·INTERVAL`), not for every `t`. -/
theorem claim_C8 :
    (∀ t : Nat, epochFor t = t / 600000) ∧
    (∀ t : Nat, epochFor (t + 600000) = epochFor t + 1) ∧
    (∀ k : Nat, epochFor (k * 600000 + (600000 - 1)) =
      epochFor (k * 600000)) := by
  refine ⟨fun t => rfl, fun t => ?_, fun k => ?_⟩
  · unfold epochFor ROTATION_INTERVAL
    omega
  · unfold epochFor ROTATION_INTERVAL
    omega

/-- C8 counterexample: at `t = 1`, `epochFor (t + INTERVAL - 1)` is `1`
while `epochFor t` is `0`, so the two are not equal for every `t`. -/
theorem claim_C8_counterexample :
    epochFor (1 + 600000 - 1) ≠ epochFor 1 := by
  unfold epochFor ROTATION_INTERVAL
  omega

/-- C6 (confirmed): `rotate(seq, e)` returns `seq` itself when
`len(seq) ≤ 1`, and `seq[offset:] ++ seq[0:offset]` with
`offset = e mod len(seq)` when `len(seq) ≥ 2`; moreover the composition
`rotateArrayByIndex(seq, getCurrentRotationIndex(len(seq), t))` used by
the code equals `rotate(seq, epochFor(t))`. -/
theorem claim_C6 (seq : List Launch) (e : Nat) :
    (seq.length ≤ 1 → rotate seq e = seq) ∧
    (2 ≤ seq.length →
      rotate seq e =
        seq.drop (e % seq.length) ++ seq.take (e % seq.length)) ∧
    (∀ t : Nat,
      rotateArrayByIndex seq (getCurrentRotationIndex seq.length t) =
        rotate seq (epochFor t)) := by
  refine ⟨?_, ?_, rotate_eq_code_composition seq⟩
  · intro h
    unfold rotate rotateArrayByIndex
    rw [if_pos h]
  · intro h
    unfold rotate rotateArrayByIndex
    rw [if_neg (by omega)]

/-- Witness for C6 at a concrete pool of length 2 and epoch 3. -/
theorem claim_C6_witness :
    rotate [{ id := "a", upvotes := none, launchDate := 0 },
        { id := "b", upvotes := none, launchDate := 0 }] 3 =
      [{ id := "b", upvotes := none, launchDate := 0 },
        { id := "a", upvotes := none, launchDate := 0 }] := by
  have h := (claim_C6 [{ id := "a", upvotes := none, launchDate := 0 },
    { id := "b", upvotes := none, launchDate := 0 }] 3).2.1 (by decide)
  exact h.trans (by decide)

/-- C7 (confirmed): for pools of length `n ≥ 2`, `rotate(seq, e)` is a
cyclic permutation of `seq` (a `drop k ++ take k` with `k < n`), the `n`
outputs at epochs `e, e+1, …, e+n-1` are a permutation of the `n`
rotations of `seq` (each rotation index occurs exactly once), and for a
duplicate-free pool the `n` outputs are pairwise distinct. -/
theorem claim_C7 (seq : List Launch) (e : Nat) (h2 : 2 ≤ seq.length) :
    (∃ k, k < seq.length ∧ rotate seq e = seq.drop k ++ seq.take k) ∧
    ((List.range seq.length).map (fun i => rotate seq (e + i))).Perm
      ((List.range seq.length).map (fun k => seq.drop k ++ seq.take k)) ∧
    (seq.Nodup →
      ((List.range seq.length).map (fun i => rotate seq (e + i))).Nodup) := by
  have hn : 0 < seq.length := by omega
  have hrot : ∀ m : Nat, rotate seq m = seq.rotate (m % seq.length) := by
    intro m
    unfold rotate rotateArrayByIndex
    rw [if_neg (by omega)]
    exact (List.rotate_eq_drop_append_take (le_of_lt (Nat.mod_lt _ hn))).symm
  have hgd : ∀ k : Nat, k < seq.length →
      seq.rotate k = seq.drop k ++ seq.take k := by
    intro k hk
    exact List.rotate_eq_drop_append_take (le_of_lt hk)
  have hmapeq :
      (List.range seq.length).map (fun i => rotate seq (e + i)) =
        ((List.range seq.length).map (fun i => (e + i) % seq.length)).map
          (fun k => seq.rotate k) := by
    rw [List.map_map]
    exact List.map_congr_left fun i hi => hrot (e + i)
  have hrange :
      (List.range seq.length).map (fun i => (e + i) % seq.length) =
        (List.range seq.length).rotate (e % seq.length) := by
    apply List.ext_get
    · rw [List.length_map, List.length_range, List.length_rotate,
        List.length_range]
    · intro i h1 h2'
      rw [List.get_eq_getElem, List.get_eq_getElem]
      simp only [List.getElem_map, List.getElem_range, List.getElem_rotate,
        List.length_range]
      conv_lhs => rw [Nat.add_comm e i, Nat.add_mod]
      conv_rhs => rw [Nat.add_mod, Nat.mod_mod]
  have houts :
      (List.range seq.length).map (fun i => rotate seq (e + i)) =
        ((List.range seq.length).rotate (e % seq.length)).map
          (fun k => seq.rotate k) := by
    rw [hmapeq, hrange]
  have htarget :
      (List.range seq.length).map (fun k => seq.drop k ++ seq.take k) =
        (List.range seq.length).map (fun k => seq.rotate k) :=
    (List.map_congr_left fun k hk => hgd k (List.mem_range.mp hk)).symm
  refine ⟨⟨e % seq.length, Nat.mod_lt _ hn, ?_⟩, ?_, ?_⟩
  · rw [hrot e]
    exact hgd (e % seq.length) (Nat.mod_lt _ hn)
  · rw [houts, htarget]
    exact (List.rotate_perm _ _).map _
  · intro hnd
    have hinj : ∀ x ∈ List.range seq.length, ∀ y ∈ List.range seq.length,
        seq.rotate x = seq.rotate y → x = y := by
      intro x hx y hy hxy
      rw [List.mem_range] at hx hy
      have h1 := congrArg List.head? hxy
      rw [List.head?_rotate hx, List.head?_rotate hy] at h1
      rw [List.getElem?_eq_getElem hx, List.getElem?_eq_getElem hy] at h1
      exact (hnd.getElem_inj_iff).mp (Option.some.inj h1)
    rw [houts]
    apply List.Nodup.map_on
    · intro x hx y hy h
      exact hinj x ((List.rotate_perm _ _).mem_iff.mp hx)
        y ((List.rotate_perm _ _).mem_iff.mp hy) h
    · exact ((List.rotate_perm _ _).nodup_iff).mpr (List.nodup_range _)

/-- Witness for C7 at a concrete duplicate-free pool of length 2 and
epoch 5. -/
theorem claim_C7_witness :
    (∃ k, k < 2 ∧
      rotate [{ id := "a", upvotes := none, launchDate := 0 },
          { id := "b", upvotes := none, launchDate := 0 }] 5 =
        ([{ id := "a", upvotes := none, launchDate := 0 },
          { id := "b", upvotes := none, launchDate := 0 }] : List Launch).drop k ++
        ([{ id := "a", upvotes := none, launchDate := 0 },
          { id := "b", upvotes := none, launchDate := 0 }] : List Launch).take k) ∧
    ((List.range 2).map (fun i =>
      rotate [{ id := "a", upvotes := none, launchDate := 0 },
        { id := "b", upvotes := none, launchDate := 0 }] (5 + i))).Nodup := by
  have h := claim_C7 [{ id := "a", upvotes := none, launchDate := 0 },
    { id := "b", upvotes := none, launchDate := 0 }] 5 (by decide)
  exact ⟨h.1, h.2.2 (by decide)⟩

/-- C9 (confirmed): `lastWeekWinners` keeps only entries whose launch
date lies in the inclusive window, is sorted by descending score
(missing upvotes count 0), keeps at most 3 entries, the underlying sort
is stable (entries of equal score keep their original relative order),
and on the concrete tie-break example A(5), B(5), C(7) the ranked result
is [C, A, B]. -/
theorem claim_C9 :
    (∀ (entries : List Launch) (wS wE : Int) (l : Launch),
      l ∈ lastWeekWinners entries wS wE →
        wS ≤ l.launchDate ∧ l.launchDate ≤ wE) ∧
    (∀ (entries : List Launch) (wS wE : Int),
      (lastWeekWinners entries wS wE).length ≤ 3) ∧
    (∀ (entries : List Launch) (wS wE : Int),
      (lastWeekWinners entries wS wE).Pairwise
        (fun a b => scoreOf b ≤ scoreOf a)) ∧
    (∀ (entries : List Launch) (c wS wE : Int),
      (sortByUpvotesDesc (entries.filter (inWindow wS wE))).filter
        (fun y => decide (scoreOf y = c)) =
      (entries.filter (inWindow wS wE)).filter
        (fun y => decide (scoreOf y = c))) ∧
    lastWeekWinners
      [{ id := "A", upvotes := some 5, launchDate := 1 },
        { id := "B", upvotes := some 5, launchDate := 2 },
        { id := "C", upvotes := some 7, launchDate := 3 }] 0 100 =
      [{ id := "C", upvotes := some 7, launchDate := 3 },
        { id := "A", upvotes := some 5, launchDate := 1 },
        { id := "B", upvotes := some 5, launchDate := 2 }] := by
  refine ⟨?_, ?_, ?_, ?_, by decide⟩
  · intro entries wS wE l hl
    have h1 := List.mem_of_mem_take hl
    have h2 := sortByUpvotesDesc_mem h1
    rw [List.mem_filter] at h2
    have h3 := h2.2
    unfold inWindow at h3
    simp only [Bool.and_eq_true, decide_eq_true_eq] at h3
    exact h3
  · intro entries wS wE
    exact List.length_take_le 3 _
  · intro entries wS wE
    exact (sortByUpvotesDesc_sorted _).sublist (List.take_sublist 3 _)
  · intro entries c wS wE
    exact sortByUpvotesDesc_stable _ c

/-- Witness for C9's window-membership clause at a concrete input. -/
theorem claim_C9_witness :
    (0 : Int) ≤ 1 ∧ (1 : Int) ≤ 100 := by
  have h := claim_C9.1
    [{ id := "A", upvotes := some 5, launchDate := 1 },
      { id := "B", upvotes := some 5, launchDate := 2 },
      { id := "C", upvotes := some 7, launchDate := 3 }] 0 100
    { id := "A", upvotes := some 5, launchDate := 1 } (by decide)
  exact h

theorem spliceLoop_eq_aux (boosted : List Launch) (ts bi : Nat)
    (acc : List ListItem) :
    spliceLoop boosted ts bi acc =
      spliceLoopAux boosted ts (boosted.length - bi) bi acc := rfl

theorem perm_launch_to_count {out : List ListItem} {pb : List Launch}
    (h : (out.map (fun it => it.launch)).Perm pb) :
    ∀ x : String, (out.map (fun it => it.launch.id)).count x =
      (pb.map (fun l => l.id)).count x := by
  intro x
  have h2 := (h.map (fun l => l.id)).count_eq x
  rw [List.map_map] at h2
  exact h2

/-- C1 (corrected): provided the primary pool is non-empty, the output
of `interleave` has length `len(p) + len(b)`, its launches are a
permutation of `p ++ b` (the multiset of ids is preserved, so every id
of a duplicate-free input appears exactly once), and the relative order
of the primary entries among themselves is preserved.  When the primary
pool is empty and the boosted pool is not, the boosted entries are
dropped and the output is empty, so the claim fails there. -/
theorem claim_C1 (p b : List Launch) (now : Nat) (hp : p ≠ []) :
    (interleave p b now).length = p.length + b.length ∧
    ((interleave p b now).map (fun it => it.launch)).Perm (p ++ b) ∧
    (∀ x : String,
      ((interleave p b now).map (fun it => it.launch.id)).count x =
        ((p ++ b).map (fun l => l.id)).count x) ∧
    ((interleave p b now).filter (fun it => !(isBoostedItem it))).map
      (fun it => it.launch) = p := by
  by_cases hb : b = []
  · subst hb
    rw [interleave_empty_branch p [] now (Or.inl rfl)]
    have hmap := tagPlain_map p 0
    refine ⟨?_, ?_, ?_, ?_⟩
    · rw [tagPlain_length]
      simp
    · rw [hmap, List.append_nil]
    · exact perm_launch_to_count (by rw [hmap, List.append_nil])
    · rw [tagPlain_filter, hmap]
  · rw [interleave_eq_main p b now hp hb, spliceLoop_eq_aux]
    set ts := now / ROTATION_INTERVAL * ROTATION_INTERVAL with hts
    set s := spacingOf p.length b.length with hs
    have hmsnd := mainLoop_snd b s ts p 0 0
    have hmlen := mainLoop_len b s ts p 0 0
    have hfuel : b.length = (mainLoop b s ts p 0 0).2 +
        (b.length - (mainLoop b s ts p 0 0).2) := by omega
    have hperm : ((spliceLoopAux b ts
        (b.length - (mainLoop b s ts p 0 0).2) (mainLoop b s ts p 0 0).2
        (mainLoop b s ts p 0 0).1).map (fun it => it.launch)).Perm (p ++ b) := by
      have h1 := spliceLoopAux_perm b ts
        (b.length - (mainLoop b s ts p 0 0).2) (mainLoop b s ts p 0 0).2
        (mainLoop b s ts p 0 0).1 hfuel
      have h2 := mainLoop_perm b s ts p 0 0
      simp only [Nat.sub_zero, List.drop_zero] at h2
      have h4 : (p ++ b.take (mainLoop b s ts p 0 0).2) ++
          b.drop (mainLoop b s ts p 0 0).2 = p ++ b := by
        rw [List.append_assoc, List.take_append_drop]
      rw [← h4]
      exact h1.trans (h2.append_right _)
    refine ⟨?_, hperm, perm_launch_to_count hperm, ?_⟩
    · rw [spliceLoopAux_len b ts _ _ _ hfuel]
      omega
    · rw [spliceLoopAux_filter]
      exact mainLoop_filter b s ts p 0 0

/-- Witness for C1 at `p = [p1]`, `b = [b1]`, `now = 0`. -/
theorem claim_C1_witness :
    (interleave [{ id := "p1", upvotes := none, launchDate := 0 }]
      [{ id := "b1", upvotes := none, launchDate := 0 }] 0).length = 1 + 1 ∧
    ((interleave [{ id := "p1", upvotes := none, launchDate := 0 }]
      [{ id := "b1", upvotes := none, launchDate := 0 }] 0).map
        (fun it => it.launch.id)).count "b1" =
      ((([{ id := "p1", upvotes := none, launchDate := 0 }] : List Launch) ++
        ([{ id := "b1", upvotes := none, launchDate := 0 }] : List Launch)).map
          (fun l : Launch => l.id)).count "b1" ∧
    ((interleave [{ id := "p1", upvotes := none, launchDate := 0 }]
      [{ id := "b1", upvotes := none, launchDate := 0 }] 0).filter
        (fun it => !(isBoostedItem it))).map (fun it => it.launch) =
      [{ id := "p1", upvotes := none, launchDate := 0 }] := by
  have h := claim_C1 [{ id := "p1", upvotes := none, launchDate := 0 }]
    [{ id := "b1", upvotes := none, launchDate := 0 }] 0 (by decide)
  exact ⟨h.1, h.2.2.1 "b1", h.2.2.2⟩

/-- C1 counterexample: with an empty primary pool and one boosted entry
the output length is 0, not `0 + 1`. -/
theorem claim_C1_counterexample :
    ¬ ((interleave [] [{ id := "b1", upvotes := none, launchDate := 0 }]
      0).length =
      ([] : List Launch).length +
        ([{ id := "b1", upvotes := none, launchDate := 0 }] :
          List Launch).length) := by
  decide

/-- C2 (corrected): the no-two-adjacent-boosted guarantee holds when all
boosted entries are placed by the main walk, i.e. when
`len(b) ≤ ⌊len(p) / spacing⌋`; when the fallback loop has to place
remaining boosted entries it can make two of them adjacent. -/
theorem claim_C2 (p b : List Launch) (now : Nat) (h2 : 2 ≤ b.length)
    (hall : b.length ≤ p.length / spacingOf p.length b.length) :
    List.Chain'
      (fun a c => ¬(isBoostedItem a = true ∧ isBoostedItem c = true))
      (interleave p b now) := by
  have hb : b ≠ [] := by
    intro h
    subst h
    simp at h2
  have hp : p ≠ [] := by
    intro h
    subst h
    rw [List.length_nil, Nat.zero_div] at hall
    omega
  rw [interleave_eq_main p b now hp hb, spliceLoop_eq_aux]
  set ts := now / ROTATION_INTERVAL * ROTATION_INTERVAL with hts
  set s := spacingOf p.length b.length with hs
  have hsnd := mainLoop_snd b s ts p 0 0
  rw [slots_eq s p.length 0] at hsnd
  simp only [Nat.zero_add, Nat.zero_div, Nat.sub_zero] at hsnd
  have hall' : b.length ≤ p.length / s := hall
  have hmeq : (mainLoop b s ts p 0 0).2 = b.length := by omega
  rw [hmeq, Nat.sub_self]
  exact (mainLoop_chain b s ts p 0 0).1

/-- Witness for C2 at the spec's scenario `p = 6`, `b = 2`
(`spacing = 3`, all boosted placed by the main walk). -/
theorem claim_C2_witness :
    List.Chain'
      (fun a c => ¬(isBoostedItem a = true ∧ isBoostedItem c = true))
      (interleave
        [{ id := "p1", upvotes := none, launchDate := 0 },
          { id := "p2", upvotes := none, launchDate := 0 },
          { id := "p3", upvotes := none, launchDate := 0 },
          { id := "p4", upvotes := none, launchDate := 0 },
          { id := "p5", upvotes := none, launchDate := 0 },
          { id := "p6", upvotes := none, launchDate := 0 }]
        [{ id := "b1", upvotes := none, launchDate := 0 },
          { id := "b2", upvotes := none, launchDate := 0 }] 0) :=
  claim_C2 _ _ 0 (by decide) (by decide)

theorem chain'_adjacent_aux : ∀ l : List ListItem,
    List.Chain'
      (fun a c => ¬(isBoostedItem a = true ∧ isBoostedItem c = true)) l →
    hasAdjacentBoosted l = false := by
  intro l
  match l with
  | [] => intro _; rfl
  | [a] => intro _; rfl
  | a :: c :: rest =>
    intro h
    rw [List.chain'_cons] at h
    show ((isBoostedItem a && isBoostedItem c) ||
      hasAdjacentBoosted (c :: rest)) = false
    rw [chain'_adjacent_aux (c :: rest) h.2, Bool.or_false]
    cases ha : isBoostedItem a
    · rfl
    · cases hc : isBoostedItem c
      · rfl
      · exact absurd ⟨ha, hc⟩ h.1

/-- C2 counterexample: `p = [p1]`, `b = [b1,b2,b3]` has `len(b) ≥ 2` and
`spacing = 2 ≥ 2`, yet the fallback loop splices `b1` and `b2` into
adjacent positions. -/
theorem claim_C2_counterexample :
    ¬ List.Chain'
      (fun a c => ¬(isBoostedItem a = true ∧ isBoostedItem c = true))
      (interleave [{ id := "p1", upvotes := none, launchDate := 0 }]
        [{ id := "b1", upvotes := none, launchDate := 0 },
          { id := "b2", upvotes := none, launchDate := 0 },
          { id := "b3", upvotes := none, launchDate := 0 }] 0) := by
  intro h
  have h1 := chain'_adjacent_aux _ h
  have h2 : hasAdjacentBoosted
      (interleave [{ id := "p1", upvotes := none, launchDate := 0 }]
        [{ id := "b1", upvotes := none, launchDate := 0 },
          { id := "b2", upvotes := none, launchDate := 0 },
          { id := "b3", upvotes := none, launchDate := 0 }] 0) = true := by
    decide
  rw [h2] at h1
  exact Bool.noConfusion h1

/-- C4 (corrected): the first element of the output is never a boosted
entry provided `len(p) ≥ 2` and `len(b) ≤ 2·len(p)`; with a singleton
primary pool, or a boosted pool sufficiently larger than the primary
pool, the fallback loop can splice a boosted entry into position 0. -/
theorem claim_C4 (p b : List Launch) (now : Nat) (h2 : 2 ≤ p.length)
    (hb2 : b.length ≤ 2 * p.length) :
    headIsBoosted (interleave p b now) = false := by
  obtain ⟨l, rest, rfl⟩ : ∃ l rest, p = l :: rest := by
    cases p with
    | nil => simp at h2
    | cons l rest => exact ⟨l, rest, rfl⟩
  by_cases hb : b = []
  · subst hb
    rw [interleave_empty_branch _ [] now (Or.inl rfl)]
    exact isBoostedItem_keyRegularNoTs l 0
  · have hp : (l :: rest) ≠ [] := by simp
    rw [interleave_eq_main _ b now hp hb, spliceLoop_eq_aux]
    set ts := now / ROTATION_INTERVAL * ROTATION_INTERVAL with hts
    set s := spacingOf (l :: rest).length b.length with hs
    have hL1 : 0 < b.length := List.length_pos.mpr hb
    have hs2 : 2 ≤ s := by
      rw [hs]
      unfold spacingOf
      omega
    have hsle : s ≤ (l :: rest).length := by
      rw [hs]
      unfold spacingOf
      have := Nat.div_le_self (l :: rest).length b.length
      omega
    have hdiv : 1 ≤ (l :: rest).length / s :=
      (Nat.one_le_div_iff (by omega)).mpr hsle
    have hsnd := mainLoop_snd b s ts (l :: rest) 0 0
    rw [slots_eq s (l :: rest).length 0] at hsnd
    simp only [Nat.zero_add, Nat.zero_div, Nat.sub_zero] at hsnd
    have hm1 : 1 ≤ (mainLoop b s ts (l :: rest) 0 0).2 := by omega
    have hlen := mainLoop_len b s ts (l :: rest) 0 0
    have hhead := spliceLoopAux_head b ts (l :: rest).length
      (b.length - (mainLoop b s ts (l :: rest) 0 0).2)
      (mainLoop b s ts (l :: rest) 0 0).2
      (mainLoop b s ts (l :: rest) 0 0).1 hm1 (by omega) (by simp) hb2
    have hmh := mainLoop_head b s ts l rest 0 0
    have hres : (spliceLoopAux b ts
        (b.length - (mainLoop b s ts (l :: rest) 0 0).2)
        (mainLoop b s ts (l :: rest) 0 0).2
        (mainLoop b s ts (l :: rest) 0 0).1).head? =
        some ⟨l, keyRegular l 0 ts⟩ := by
      rw [hhead, hmh]
    cases hspl : spliceLoopAux b ts
        (b.length - (mainLoop b s ts (l :: rest) 0 0).2)
        (mainLoop b s ts (l :: rest) 0 0).2
        (mainLoop b s ts (l :: rest) 0 0).1 with
    | nil =>
      rw [hspl] at hres
      exact absurd hres (by simp)
    | cons x xs =>
      rw [hspl] at hres
      simp only [List.head?_cons, Option.some.injEq] at hres
      show isBoostedItem x = false
      rw [hres]
      exact isBoostedItem_keyRegular l 0 ts

/-- Witness for C4 at `p = [p1, p2]`, `b = [b1]`, `now = 0`. -/
theorem claim_C4_witness :
    headIsBoosted
      (interleave [{ id := "p1", upvotes := none, launchDate := 0 },
          { id := "p2", upvotes := none, launchDate := 0 }]
        [{ id := "b1", upvotes := none, launchDate := 0 }] 0) = false :=
  claim_C4 _ _ 0 (by decide) (by decide)

/-- C4 counterexample: with `p = [p1]`, `b = [b1]` (both non-empty) the
fallback loop splices the boosted entry into position 0, so the first
element is boosted; the same happens with `p` of length 3 against 9
boosted entries. -/
theorem claim_C4_counterexample :
    headIsBoosted
      (interleave [{ id := "p1", upvotes := none, launchDate := 0 }]
        [{ id := "b1", upvotes := none, launchDate := 0 }] 0) = true ∧
    headIsBoosted
      (interleave [{ id := "p1", upvotes := none, launchDate := 0 },
          { id := "p2", upvotes := none, launchDate := 0 },
          { id := "p3", upvotes := none, launchDate := 0 }]
        [{ id := "c1", upvotes := none, launchDate := 0 },
          { id := "c2", upvotes := none, launchDate := 0 },
          { id := "c3", upvotes := none, launchDate := 0 },
          { id := "c4", upvotes := none, launchDate := 0 },
          { id := "c5", upvotes := none, launchDate := 0 },
          { id := "c6", upvotes := none, launchDate := 0 },
          { id := "c7", upvotes := none, launchDate := 0 },
          { id := "c8", upvotes := none, launchDate := 0 },
          { id := "c9", upvotes := none, launchDate := 0 }] 0) = true := by
  constructor <;> decide

theorem spliceLoopFPAux_succ_pos (boosted : List Launch) (ts fuel bi : Nat)
    (acc : List ListItem) (h : bi < boosted.length) :
    spliceLoopFPAux boosted ts (fuel + 1) bi acc =
      spliceLoopFPAux boosted ts fuel (bi + 1)
        (splice0 acc
          (jsInsertIndex acc.length (boosted.length - bi + 1) (bi + 1))
          ⟨boosted.getD bi dfltLaunch,
            keyBoostedRemaining (boosted.getD bi dfltLaunch) bi ts⟩) := by
  conv_lhs => unfold spliceLoopFPAux
  rw [if_pos h]

theorem spliceLoopFP_eq_aux (boosted : List Launch) (ts bi : Nat)
    (acc : List ListItem) :
    spliceLoopFP boosted ts bi acc =
      spliceLoopFPAux boosted ts (boosted.length - bi) bi acc := rfl

theorem interleaveFP_eq_main (primary boosted : List Launch) (now : Nat)
    (hp : primary ≠ []) (hb : boosted ≠ []) :
    interleaveFP primary boosted now =
      spliceLoopFP boosted (now / ROTATION_INTERVAL * ROTATION_INTERVAL)
        (mainLoop boosted (spacingOf primary.length boosted.length)
          (now / ROTATION_INTERVAL * ROTATION_INTERVAL) primary 0 0).2
        (mainLoop boosted (spacingOf primary.length boosted.length)
          (now / ROTATION_INTERVAL * ROTATION_INTERVAL) primary 0 0).1 := by
  unfold interleaveFP insertBoostedLaunchesFP
  rw [if_neg (by simp [List.length_eq_zero, hp, hb])]

/-- C5 (corrected): two corrections.  First, the loop counter tagged
into `"...remaining-{k}-..."` and fed into the insertion formula is the
absolute boosted-array index `boostedIndex`, continued from where the
main walk stopped — not the 0-based relative index among the remaining
entries — and the divisor uses the total boosted count.  Second, the
insertion position is `Math.floor((resultLength / (len(b) −
boostedIndex + 1)) · (boostedIndex + 1))` evaluated in IEEE-754 double
arithmetic (then clamped to the end by `splice`); the doubles can fall
below the exact-arithmetic floor: at `resultLength = 15`, divisor `11`,
multiplier `11` they give `14` while the exact value is `15`. -/
theorem claim_C5 :
    (∀ (b : List Launch) (ts bi : Nat) (acc : List ListItem),
      bi < b.length →
      spliceLoopFP b ts bi acc =
        spliceLoopFP b ts (bi + 1)
          (splice0 acc
            (jsInsertIndex acc.length (b.length - bi + 1) (bi + 1))
            ⟨b.getD bi dfltLaunch,
              keyBoostedRemaining (b.getD bi dfltLaunch) bi ts⟩)) ∧
    (∀ (p b : List Launch) (now : Nat), p ≠ [] → b ≠ [] →
      interleaveFP p b now =
        spliceLoopFP b (now / ROTATION_INTERVAL * ROTATION_INTERVAL)
          (mainLoop b (spacingOf p.length b.length)
            (now / ROTATION_INTERVAL * ROTATION_INTERVAL) p 0 0).2
          (mainLoop b (spacingOf p.length b.length)
            (now / ROTATION_INTERVAL * ROTATION_INTERVAL) p 0 0).1) ∧
    interleaveFP
      [{ id := "p1", upvotes := none, launchDate := 0 },
        { id := "p2", upvotes := none, launchDate := 0 },
        { id := "p3", upvotes := none, launchDate := 0 }]
      [{ id := "b1", upvotes := none, launchDate := 0 },
        { id := "b2", upvotes := none, launchDate := 0 }] 0 =
      [⟨{ id := "p1", upvotes := none, launchDate := 0 },
          keyRegular { id := "p1", upvotes := none, launchDate := 0 } 0 0⟩,
        ⟨{ id := "p2", upvotes := none, launchDate := 0 },
          keyRegular { id := "p2", upvotes := none, launchDate := 0 } 1 0⟩,
        ⟨{ id := "b1", upvotes := none, launchDate := 0 },
          keyBoosted { id := "b1", upvotes := none, launchDate := 0 } 1 0⟩,
        ⟨{ id := "p3", upvotes := none, launchDate := 0 },
          keyRegular { id := "p3", upvotes := none, launchDate := 0 } 2 0⟩,
        ⟨{ id := "b2", upvotes := none, launchDate := 0 },
          keyBoostedRemaining
            { id := "b2", upvotes := none, launchDate := 0 } 1 0⟩] ∧
    (jsInsertIndex 15 11 11 = 14 ∧ 15 * 11 / 11 = 15) := by
  refine ⟨?_, ?_, by decide, by decide, by decide⟩
  · intro b ts bi acc hbi
    rw [spliceLoopFP_eq_aux, spliceLoopFP_eq_aux]
    have hf : b.length - bi = (b.length - (bi + 1)) + 1 := by omega
    conv_lhs => rw [hf]
    rw [spliceLoopFPAux_succ_pos b ts _ bi acc hbi]
  · intro p b now hp hb
    exact interleaveFP_eq_main p b now hp hb

/-- Witness for C5's step equation at `b = [b1]`, `bi = 0`,
`acc = []` (here the double arithmetic is exact and the index is 0). -/
theorem claim_C5_witness :
    spliceLoopFP [{ id := "b1", upvotes := none, launchDate := 0 }] 0 0 [] =
      spliceLoopFP [{ id := "b1", upvotes := none, launchDate := 0 }] 0 1
        (splice0 [] 0
          ⟨{ id := "b1", upvotes := none, launchDate := 0 },
            keyBoostedRemaining
              { id := "b1", upvotes := none, launchDate := 0 } 0 0⟩) := by
  have h := claim_C5.1 [{ id := "b1", upvotes := none, launchDate := 0 }]
    0 0 [] (by decide)
  exact h.trans (by decide)

/-- C5 counterexample: for `p = [p1,p2,p3]`, `b = [b1,b2]` the main walk
places `b1` and leaves `b2` as the only remaining boosted entry, whose
relative index is `k = 0`; the claim predicts tag `remaining-0` and
insertion at `⌊4 / (1 − 0 + 1) · (0 + 1)⌋ = 2`, but the code tags it
`remaining-1` (no `remaining-0` key exists in the output) and appends
it at the end (index 4, not 2).  At these operand sizes the double
arithmetic is exact, so the trace refutes the claim independently of
rounding. -/
theorem claim_C5_counterexample :
    (keyBoostedRemaining { id := "b2", upvotes := none, launchDate := 0 } 1 0 ∈
      (interleaveFP
        [{ id := "p1", upvotes := none, launchDate := 0 },
          { id := "p2", upvotes := none, launchDate := 0 },
          { id := "p3", upvotes := none, launchDate := 0 }]
        [{ id := "b1", upvotes := none, launchDate := 0 },
          { id := "b2", upvotes := none, launchDate := 0 }] 0).map
        (fun it => it.uniqueKey)) ∧
    ¬ (keyBoostedRemaining { id := "b2", upvotes := none, launchDate := 0 } 0 0 ∈
      (interleaveFP
        [{ id := "p1", upvotes := none, launchDate := 0 },
          { id := "p2", upvotes := none, launchDate := 0 },
          { id := "p3", upvotes := none, launchDate := 0 }]
        [{ id := "b1", upvotes := none, launchDate := 0 },
          { id := "b2", upvotes := none, launchDate := 0 }] 0).map
        (fun it => it.uniqueKey)) ∧
    (interleaveFP
      [{ id := "p1", upvotes := none, launchDate := 0 },
        { id := "p2", upvotes := none, launchDate := 0 },
        { id := "p3", upvotes := none, launchDate := 0 }]
      [{ id := "b1", upvotes := none, launchDate := 0 },
        { id := "b2", upvotes := none, launchDate := 0 }] 0).map
      (fun it => it.launch.id) = ["p1", "p2", "b1", "p3", "b2"] := by
  refine ⟨by decide, by decide, by decide⟩

theorem keyRegular_ne_keyBoosted {l1 l2 : Launch} {i1 i2 ts1 ts2 : Nat} :
    keyRegular l1 i1 ts1 ≠ keyBoosted l2 i2 ts2 := by
  unfold keyRegular keyBoosted
  exact wr_append_ne_wb_append _ _

theorem keyRegular_ne_keyBoostedRemaining {l1 l2 : Launch}
    {i j ts1 ts2 : Nat} :
    keyRegular l1 i ts1 ≠ keyBoostedRemaining l2 j ts2 := by
  unfold keyRegular keyBoostedRemaining
  exact wr_append_ne_wb_append _ _

theorem tagPlain_keys :
    ∀ (launches : List Launch) (index : Nat),
      (∀ l ∈ launches, hyphenFree l.id.data) →
      ((tagPlain launches index).map (fun it => it.uniqueKey)).Nodup ∧
      (∀ k ∈ (tagPlain launches index).map (fun it => it.uniqueKey),
        ∃ l i, l ∈ launches ∧ index ≤ i ∧ k = keyRegularNoTs l i) := by
  intro launches
  induction launches with
  | nil => intro index _; exact ⟨by simp [tagPlain], by simp [tagPlain]⟩
  | cons l rest ih =>
    intro index hid
    have hidl : hyphenFree l.id.data := hid l (List.mem_cons_self l rest)
    have hidr : ∀ x ∈ rest, hyphenFree x.id.data :=
      fun x hx => hid x (List.mem_cons_of_mem _ hx)
    obtain ⟨hnd, hshape⟩ := ih (index + 1) hidr
    constructor
    · show (keyRegularNoTs l index ::
        (tagPlain rest (index + 1)).map (fun it => it.uniqueKey)).Nodup
      rw [List.nodup_cons]
      refine ⟨?_, hnd⟩
      intro hmem
      obtain ⟨l', i', hl', hi', hk⟩ := hshape _ hmem
      have := keyRegularNoTs_inj hidl (hidr l' hl') hk
      omega
    · intro k hk
      have hk' : k ∈ keyRegularNoTs l index ::
          (tagPlain rest (index + 1)).map (fun it => it.uniqueKey) := hk
      rcases List.mem_cons.mp hk' with rfl | hk''
      · exact ⟨l, index, List.mem_cons_self l rest, le_refl index, rfl⟩
      · obtain ⟨l', i', hl', hi', hkk⟩ := hshape _ hk''
        exact ⟨l', i', List.mem_cons_of_mem _ hl', by omega, hkk⟩

theorem mainLoop_keys (boosted : List Launch) (spacing ts : Nat)
    (hidb : ∀ x ∈ boosted, hyphenFree x.id.data) :
    ∀ launches index bi,
      (∀ x ∈ launches, hyphenFree x.id.data) →
      ((mainLoop boosted spacing ts launches index bi).1.map
        (fun it => it.uniqueKey)).Nodup ∧
      (∀ k ∈ (mainLoop boosted spacing ts launches index bi).1.map
          (fun it => it.uniqueKey),
        (∃ l i, l ∈ launches ∧ index ≤ i ∧ k = keyRegular l i ts) ∨
        (∃ l i, l ∈ boosted ∧ index ≤ i ∧ k = keyBoosted l i ts)) := by
  intro launches
  induction launches with
  | nil => intro index bi _; exact ⟨by simp [mainLoop], by simp [mainLoop]⟩
  | cons l rest ih =>
    intro index bi hid
    have hidl : hyphenFree l.id.data := hid l (List.mem_cons_self l rest)
    have hidr : ∀ x ∈ rest, hyphenFree x.id.data :=
      fun x hx => hid x (List.mem_cons_of_mem _ hx)
    by_cases hcond : (index + 1) % spacing = 0 ∧ bi < boosted.length
    · rw [mainLoop_cons_pos boosted spacing ts l rest index bi hcond]
      dsimp only
      obtain ⟨hnd, hshape⟩ := ih (index + 1) (bi + 1) hidr
      have hbv : boosted.getD bi dfltLaunch ∈ boosted := by
        rw [List.getD_eq_getElem _ _ hcond.2]
        exact List.getElem_mem _
      have hidbv : hyphenFree (boosted.getD bi dfltLaunch).id.data :=
        hidb _ hbv
      constructor
      · rw [List.map_cons, List.map_cons, List.nodup_cons, List.nodup_cons]
        refine ⟨?_, ?_, hnd⟩
        · intro hmem
          rcases List.mem_cons.mp hmem with heq | hmem'
          · exact keyRegular_ne_keyBoosted heq
          · rcases hshape _ hmem' with ⟨l', i', hl', hi', hk⟩ |
              ⟨l', i', hl', hi', hk⟩
            · have := keyRegular_inj hidl (hidr l' hl') hk
              omega
            · exact keyRegular_ne_keyBoosted hk
        · intro hmem
          rcases hshape _ hmem with ⟨l', i', hl', hi', hk⟩ |
            ⟨l', i', hl', hi', hk⟩
          · exact keyRegular_ne_keyBoosted hk.symm
          · have := keyBoosted_inj hidbv (hidb l' hl') hk
            omega
      · intro k hk
        rw [List.map_cons, List.map_cons] at hk
        rcases List.mem_cons.mp hk with rfl | hk'
        · exact Or.inl ⟨l, index, List.mem_cons_self l rest, le_refl index, rfl⟩
        rcases List.mem_cons.mp hk' with rfl | hk''
        · exact Or.inr ⟨_, index, hbv, le_refl index, rfl⟩
        rcases hshape _ hk'' with ⟨l', i', hl', hi', hkk⟩ |
          ⟨l', i', hl', hi', hkk⟩
        · exact Or.inl ⟨l', i', List.mem_cons_of_mem _ hl', by omega, hkk⟩
        · exact Or.inr ⟨l', i', hl', by omega, hkk⟩
    · rw [mainLoop_cons_neg boosted spacing ts l rest index bi hcond]
      dsimp only
      obtain ⟨hnd, hshape⟩ := ih (index + 1) bi hidr
      constructor
      · rw [List.map_cons, List.nodup_cons]
        refine ⟨?_, hnd⟩
        intro hmem
        rcases hshape _ hmem with ⟨l', i', hl', hi', hk⟩ |
          ⟨l', i', hl', hi', hk⟩
        · have := keyRegular_inj hidl (hidr l' hl') hk
          omega
        · exact keyRegular_ne_keyBoosted hk
      · intro k hk
        rw [List.map_cons] at hk
        rcases List.mem_cons.mp hk with rfl | hk'
        · exact Or.inl ⟨l, index, List.mem_cons_self l rest, le_refl index, rfl⟩
        rcases hshape _ hk' with ⟨l', i', hl', hi', hkk⟩ |
          ⟨l', i', hl', hi', hkk⟩
        · exact Or.inl ⟨l', i', List.mem_cons_of_mem _ hl', by omega, hkk⟩
        · exact Or.inr ⟨l', i', hl', by omega, hkk⟩

theorem spliceLoopAux_keys (p b : List Launch) (ts : Nat)
    (hidb : ∀ x ∈ b, hyphenFree x.id.data) :
    ∀ fuel bi acc,
      (acc.map (fun it => it.uniqueKey)).Nodup →
      (∀ k ∈ acc.map (fun it => it.uniqueKey), KeyShape p b ts bi k) →
      ((spliceLoopAux b ts fuel bi acc).map
        (fun it => it.uniqueKey)).Nodup := by
  intro fuel
  induction fuel with
  | zero => intro bi acc hnd _; exact hnd
  | succ fuel ih =>
    intro bi acc hnd hshape
    by_cases hbi : bi < b.length
    · rw [spliceLoopAux_succ_pos b ts fuel bi acc hbi]
      have hbv : b.getD bi dfltLaunch ∈ b := by
        rw [List.getD_eq_getElem _ _ hbi]
        exact List.getElem_mem _
      have hperm := (splice0_perm acc
        (acc.length * (bi + 1) / (b.length - bi + 1))
        ⟨b.getD bi dfltLaunch,
          keyBoostedRemaining (b.getD bi dfltLaunch) bi ts⟩).map
        (fun it => it.uniqueKey)
      apply ih (bi + 1)
      · rw [hperm.nodup_iff]
        rw [List.map_cons, List.nodup_cons]
        refine ⟨?_, hnd⟩
        intro hmem
        rcases hshape _ hmem with ⟨l', i', hl', hk⟩ | ⟨l', i', hl', hk⟩ |
          ⟨l', j', hl', hj', hk⟩
        · exact keyRegular_ne_keyBoostedRemaining hk.symm
        · exact keyBoosted_ne_keyBoostedRemaining (hidb l' hl')
            (hidb _ hbv) hk.symm
        · have := keyBoostedRemaining_inj (hidb _ hbv) (hidb l' hl') hk
          omega
      · intro k hk
        rw [hperm.mem_iff, List.map_cons] at hk
        rcases List.mem_cons.mp hk with rfl | hk'
        · exact Or.inr (Or.inr ⟨_, bi, hbv, by omega, rfl⟩)
        rcases hshape _ hk' with h | h | ⟨l', j', hl', hj', hkk⟩
        · exact Or.inl h
        · exact Or.inr (Or.inl h)
        · exact Or.inr (Or.inr ⟨l', j', hl', by omega, hkk⟩)
    · rw [spliceLoopAux_succ_neg b ts fuel bi acc hbi]
      exact hnd

/-- C10 (confirmed): when every entry id in the two pools contains no
hyphen, the `uniqueKey` strings of the interleave output are pairwise
distinct: regular keys, main-walk boosted keys and fallback
`remaining` keys can never collide, so the output is usable as a set of
unique render keys. -/
theorem claim_C10 (p b : List Launch) (now : Nat)
    (hid : ∀ l ∈ p ++ b, hyphenFree l.id.data) :
    ((interleave p b now).map (fun it => it.uniqueKey)).Nodup := by
  have hidp : ∀ l ∈ p, hyphenFree l.id.data :=
    fun l hl => hid l (List.mem_append_left _ hl)
  have hidb : ∀ l ∈ b, hyphenFree l.id.data :=
    fun l hl => hid l (List.mem_append_right _ hl)
  by_cases hbranch : b.length = 0 ∨ p.length = 0
  · rw [interleave_empty_branch p b now hbranch]
    exact (tagPlain_keys p 0 hidp).1
  · push_neg at hbranch
    have hp : p ≠ [] := by
      intro h
      subst h
      simp at hbranch
    have hb : b ≠ [] := by
      intro h
      subst h
      simp at hbranch
    rw [interleave_eq_main p b now hp hb, spliceLoop_eq_aux]
    set ts := now / ROTATION_INTERVAL * ROTATION_INTERVAL with hts
    set s := spacingOf p.length b.length with hs
    obtain ⟨hnd, hshape⟩ := mainLoop_keys b s ts hidb p 0 0 hidp
    apply spliceLoopAux_keys p b ts hidb _ _ _ hnd
    intro k hk
    rcases hshape k hk with ⟨l, i, hl, hi, hkk⟩ | ⟨l, i, hl, hi, hkk⟩
    · exact Or.inl ⟨l, i, hl, hkk⟩
    · exact Or.inr (Or.inl ⟨l, i, hl, hkk⟩)

/-- Witness for C10 at hyphen-free ids `p = [p1, p2]`, `b = [bb]`. -/
theorem claim_C10_witness :
    ((interleave [{ id := "p1", upvotes := none, launchDate := 0 },
        { id := "p2", upvotes := none, launchDate := 0 }]
      [{ id := "bb", upvotes := none, launchDate := 0 }] 0).map
      (fun it => it.uniqueKey)).Nodup :=
  claim_C10 _ _ 0 (by decide)
